import Mathlib

/-!
Verification of `src/Applications/src/aggregate-images.cc` (MIRTK
`aggregate-images` tool) against its natural-language specification.

Modelling conventions:
* A voxel value of the `double`-valued input images is modelled as
  `Option ℚ`: `none` stands for the IEEE NaN "no data" sentinel, `some q`
  for a finite numeric value.  Real (`double`) arithmetic is idealised as
  exact rational arithmetic.
* An image is a total function from voxel index to value plus the
  designated background value, mirroring `GenericImage` together with its
  `PutBackgroundValueAsDouble` state.
* Indexed `for` loops over voxels or samples become `Finset.range` sums or
  `List` recursions; the per-voxel sample array is a `List`.
* Sample statistics (`GiniCoefficient`, `EntropyIndex`) operate on `ℚ`
  samples; the entropy index produces a real number since the source uses
  `log` and `pow`.
-/

/-- A voxel value: `none` models IEEE NaN, `some q` a finite value. -/
abbrev Voxel := Option ℚ

/-- Model of `GenericImage`: voxel data plus the background value
(`PutBackgroundValueAsDouble`).  Data is a total function on voxel
indices; the pipeline steps below only inspect indices `< nvox`. -/
structure GenericImage where
  data : Nat → Voxel
  bg : Voxel

/-- Modelled from the spec (the `BaseImage` container is not under `src/`):
"a voxel is background if its stored value equals the background value
(exact match, including NaN-as-sentinel semantics)".  With `none` as NaN,
plain `Option` equality gives exactly the NaN-as-sentinel match. -/
def GenericImage.IsBackground (im : GenericImage) (vox : Nat) : Prop :=
  im.data vox = im.bg

/-- Modelled from the spec: a voxel is foreground iff it is not background. -/
def GenericImage.IsForeground (im : GenericImage) (vox : Nat) : Prop :=
  ¬ im.IsBackground vox

instance (im : GenericImage) (vox : Nat) : Decidable (im.IsBackground vox) :=
  inferInstanceAs (Decidable (im.data vox = im.bg))

instance (im : GenericImage) (vox : Nat) : Decidable (im.IsForeground vox) :=
  inferInstanceAs (Decidable ¬ (im.data vox = im.bg))

/-- Enumeration of implemented aggregation functions (`AggregationMode`). -/
inductive AggregationMode where
  | AM_Mean
  | AM_Median
  | AM_StDev
  | AM_Gini
  | AM_Theil
  | AM_EntropyIndex
  | AM_Entropy
deriving DecidableEq

export AggregationMode (AM_Mean AM_Median AM_StDev AM_Gini AM_Theil AM_EntropyIndex AM_Entropy)

/-- Line 491: `const double bg = (mode == AM_Mean ? NaN : 1e-3);`. -/
def outputBg (mode : AggregationMode) : Voxel :=
  if mode = AM_Mean then none else some (1 / 1000)

/-- Lines 506-513 (union policy, inner loop): scan the input images in
order; at the first one that is foreground at `vox` the output voxel is
set to `0.` and the loop breaks, otherwise the initial assignment
`output = bg` (line 505) is kept. -/
def unionScan (images : List GenericImage) (bgv : Voxel) (vox : Nat) : Voxel :=
  match images with
  | [] => bgv
  | im :: rest => if im.IsForeground vox then some 0 else unionScan rest bgv vox

/-- Lines 504-516 (default union compositing branch): the output image
after `output = bg`, the per-voxel foreground scan, and
`output.PutBackgroundValueAsDouble(bg)`. -/
def unionOutput (images : List GenericImage) (mode : AggregationMode) : GenericImage :=
  { data := fun vox => unionScan images (outputBg mode) vox
    bg := outputBg mode }

lemma outputBg_ne_zero (mode : AggregationMode) : outputBg mode ≠ some 0 := by
  cases mode <;> simp [outputBg]

lemma unionScan_eq_bg_iff (images : List GenericImage) (bgv : Voxel) (vox : Nat)
    (hbg : bgv ≠ some 0) :
    unionScan images bgv vox = bgv ↔ ∀ im ∈ images, im.IsBackground vox := by
  induction images with
  | nil => simp [unionScan]
  | cons im rest ih =>
    by_cases h : im.IsForeground vox
    · simp only [unionScan, if_pos h]
      constructor
      · intro h0
        exact absurd h0.symm hbg
      · intro hall
        exact absurd (hall im (List.mem_cons_self _ _)) h
    · simp only [unionScan, if_neg h]
      rw [ih]
      constructor
      · intro hall
        intro im' him'
        rcases List.mem_cons.mp him' with rfl | hmem
        · exact not_not.mp h
        · exact hall im' hmem
      · intro hall im' him'
        exact hall im' (List.mem_cons_of_mem _ him')

/-- Claim C1: under the default union compositing policy a voxel of the
output image is background exactly when every input image is background
at that position (equivalently, foreground iff at least one input is
foreground there). -/
theorem union_output_background_iff (mode : AggregationMode)
    (images : List GenericImage) (vox : Nat) :
    (unionOutput images mode).IsBackground vox ↔
      ∀ im ∈ images, im.IsBackground vox := by
  have h := unionScan_eq_bg_iff images (outputBg mode) vox (outputBg_ne_zero mode)
  simpa [unionOutput, GenericImage.IsBackground] using h

/-- Lines 241-247 (`AggregateValuesAtEachVoxel::operator()`): the per-voxel
sample array, one entry `values[i] = (*_Images)[i].Get(vox)` per input
image, in input order. -/
def gatherSamples (images : List GenericImage) (vox : Nat) : List Voxel :=
  images.map (fun im => im.data vox)

/-- Modelled from the spec (`mirtk::fequal` is not under `src/`):
"equality-to-zero tests use a tolerance-based comparison, not exact
floating equality"; a fixed small positive tolerance. -/
def fequal (a b : ℚ) : Prop :=
  |a - b| < 1 / 1000000000000

instance (a b : ℚ) : Decidable (fequal a b) :=
  inferInstanceAs (Decidable (|a - b| < 1 / 1000000000000))

/-- Lines 194-203 (`Normalize`, `Normalization_ZScore` branch): the scale
and translation `(s, t)` of the affine map `v ↦ s·v + t`, as a function of
the mean and standard deviation computed by the (external)
`NormalDistribution::Calculate`.  Note the branch applies `1/σ` when
`fequal(sigma, 0.)` holds, not when it fails. -/
def zscoreST (mean sigma : ℚ) : ℚ × ℚ :=
  if fequal sigma 0 then (1 / sigma, -mean / sigma) else (1, -mean)

/-- Counterexample to claim C2: with `mean = 1` and `σ = 10⁻¹³` the
tolerance-based zero test succeeds, and the code then sets
`t = −mean/σ = −10¹³`, not `t = −mean = −1` as the claim states. -/
theorem zscoreST_t_ne_neg_mean :
    fequal (1 / 10000000000000) 0 ∧
      (zscoreST 1 (1 / 10000000000000)).2 ≠ -1 := by
  have hf : fequal (1 / 10000000000000) 0 := by
    show |1 / 10000000000000 - (0:ℚ)| < 1 / 1000000000000
    rw [sub_zero, abs_of_pos (by norm_num)]
    norm_num
  refine ⟨hf, ?_⟩
  rw [zscoreST, if_pos hf]
  norm_num

/-- Claim C2 (amended): in the ZScore branch the code applies
`s = 1/σ, t = −mean/σ` exactly when `σ` is numerically zero
(tolerance-based comparison), and `s = 1, t = −mean` otherwise. -/
theorem zscoreST_branches (mean sigma : ℚ) :
    (fequal sigma 0 → zscoreST mean sigma = (1 / sigma, -mean / sigma)) ∧
      (¬ fequal sigma 0 → zscoreST mean sigma = (1, -mean)) := by
  constructor
  · intro h
    simp [zscoreST, if_pos h]
  · intro h
    simp [zscoreST, if_neg h]

/-- Witness for C2's amended theorem: both branches at concrete inputs. -/
theorem zscoreST_branches_witness :
    zscoreST 1 (1 / 10000000000000) = (10000000000000, -10000000000000) ∧
      zscoreST 1 1 = (1, -1) := by
  constructor
  · have h := (zscoreST_branches 1 (1 / 10000000000000)).1 (by
      show |1 / 10000000000000 - (0:ℚ)| < 1 / 1000000000000
      rw [sub_zero, abs_of_pos (by norm_num)]
      norm_num)
    rw [h]
    norm_num
  · exact (zscoreST_branches 1 1).2 (by
      show ¬ |1 - (0:ℚ)| < 1 / 1000000000000
      rw [sub_zero, abs_of_pos (by norm_num)]
      norm_num)

/-- Counterexample to claim C3: two inputs whose background sentinel is
NaN (as set on line 451); at voxel 0 the first is foreground and the
second background.  The union-composited output is foreground there, yet
the gathered per-voxel sample array contains the second input's stored
NaN, so not every entry is a valid numeric value. -/
theorem gatherSamples_nan_entry :
    (unionOutput [⟨fun _ => some 1, none⟩, ⟨fun _ => none, none⟩] AM_Mean).IsForeground 0 ∧
      ¬ (∀ v ∈ gatherSamples [⟨fun _ => some 1, none⟩, ⟨fun _ => none, none⟩] 0, v ≠ none) := by
  constructor
  · simp [unionOutput, unionScan, outputBg, GenericImage.IsForeground,
      GenericImage.IsBackground]
  · intro h
    exact h none (by simp [gatherSamples]) rfl

/-- Claim C3 (amended): for inputs whose background sentinel is NaN, the
per-voxel sample array gathered at a voxel consists exclusively of valid
numeric values iff every input image is foreground at that voxel; an
input that is background there contributes a NaN entry, so validity of
all entries is only guaranteed when all inputs are foreground (as under
the intersection policy), not at every union-foreground voxel. -/
theorem gatherSamples_valid_iff (images : List GenericImage) (vox : Nat)
    (hbg : ∀ im ∈ images, im.bg = none) :
    (∀ v ∈ gatherSamples images vox, v ≠ none) ↔
      ∀ im ∈ images, im.IsForeground vox := by
  constructor
  · intro h im him
    intro hb
    have hv : im.data vox ∈ gatherSamples images vox := by
      simp only [gatherSamples, List.mem_map]
      exact ⟨im, him, rfl⟩
    have := h _ hv
    rw [GenericImage.IsBackground, hbg im him] at hb
    exact this hb
  · intro h v hv
    simp only [gatherSamples, List.mem_map] at hv
    obtain ⟨im, him, rfl⟩ := hv
    intro hnone
    have hfg := h im him
    rw [GenericImage.IsForeground, GenericImage.IsBackground, hbg im him] at hfg
    exact hfg hnone

/-- Witness for C3's amended theorem at a concrete input. -/
theorem gatherSamples_valid_iff_witness :
    (∀ v ∈ gatherSamples [⟨fun _ => some 1, none⟩] 0, v ≠ none) ↔
      ∀ im ∈ [(⟨fun _ => some 1, none⟩ : GenericImage)], im.IsForeground 0 :=
  gatherSamples_valid_iff [⟨fun _ => some 1, none⟩] 0 (by
    intro im him
    simp only [List.mem_singleton] at him
    rw [him])

/-- Lines 469-473 with `GetMinMaxAsDouble` modelled from the spec (the
image container is not under `src/`): the per-image minimum is taken over
the foreground voxel values (comparisons against NaN fail, and the fatal
error on line 474-476 fires exactly when no input has any foreground, so
the external min/max ranges over foreground values only).  Here: the
numeric values stored at foreground voxels with index `< nvox`. -/
def foregroundValues (im : GenericImage) (nvox : Nat) : List ℚ :=
  (List.range nvox).filterMap
    (fun vox => if im.IsForeground vox then im.data vox else none)

/-- Lines 467-476: the global minimum over all foreground voxels of all
input images; `none` models the `IsInf(min_value)` fatal-error case. -/
def globalForegroundMin (images : List GenericImage) (nvox : Nat) : Option ℚ :=
  (images.flatMap (fun im => foregroundValues im nvox)).min?

/-- Lines 478-487: with `m = min_value` (already decremented by 1 on line
477), each input image has `m` subtracted at foreground voxels, is set to
`0.` at background voxels, and gets background value `0.`. -/
def shiftImage (im : GenericImage) (m : ℚ) : GenericImage :=
  { data := fun vox =>
      if im.IsForeground vox then (im.data vox).map (fun v => v - m) else some 0
    bg := some 0 }

lemma mem_foregroundValues {im : GenericImage} {nvox vox : Nat} {v : ℚ}
    (hvox : vox < nvox) (hfg : im.IsForeground vox) (hval : im.data vox = some v) :
    v ∈ foregroundValues im nvox := by
  simp only [foregroundValues, List.mem_filterMap, List.mem_range]
  exact ⟨vox, hvox, by rw [if_pos hfg, hval]⟩

lemma foldl_min_le_init (t : List ℚ) : ∀ a : ℚ, t.foldl min a ≤ a := by
  induction t with
  | nil => intro a; exact le_refl a
  | cons z t ih => intro a; exact le_trans (ih (min a z)) (min_le_left a z)

lemma foldl_min_le_mem (t : List ℚ) : ∀ a y : ℚ, y ∈ t → t.foldl min a ≤ y := by
  induction t with
  | nil =>
    intro a y hy
    cases hy
  | cons z t ih =>
    intro a y hy
    rcases List.mem_cons.mp hy with rfl | hmem
    · exact le_trans (foldl_min_le_init t (min a y)) (min_le_right a y)
    · exact ih (min a z) y hmem

lemma min?_le_mem {l : List ℚ} {a x : ℚ} (h : l.min? = some a) (hx : x ∈ l) :
    a ≤ x := by
  cases l with
  | nil => cases hx
  | cons b t =>
    have hdef : (b :: t).min? = some (t.foldl min b) := rfl
    rw [hdef] at h
    have ha : a = t.foldl min b := (Option.some.inj h).symm
    subst ha
    rcases List.mem_cons.mp hx with rfl | hmem
    · exact foldl_min_le_init t x
    · exact foldl_min_le_mem t b x hmem

lemma globalForegroundMin_le {images : List GenericImage} {nvox : Nat} {gmin : ℚ}
    (hmin : globalForegroundMin images nvox = some gmin)
    {im : GenericImage} (him : im ∈ images) {vox : Nat} (hvox : vox < nvox)
    {v : ℚ} (hfg : im.IsForeground vox) (hval : im.data vox = some v) :
    gmin ≤ v := by
  have hmem : v ∈ images.flatMap (fun im => foregroundValues im nvox) :=
    List.mem_flatMap.mpr ⟨im, him, mem_foregroundValues hvox hfg hval⟩
  rw [globalForegroundMin] at hmin
  exact min?_le_mem hmin hmem

/-- Claim C4: for the dispersion/entropy modes, after the global
shift-to-positive step (subtracting `gmin − 1` from foreground voxels,
where `gmin` is the global foreground minimum), every foreground voxel of
every shifted input image holds a numeric value that is strictly positive. -/
theorem shifted_foreground_positive (images : List GenericImage) (nvox : Nat)
    (gmin : ℚ) (hbg : ∀ im ∈ images, im.bg = none)
    (hmin : globalForegroundMin images nvox = some gmin)
    (im : GenericImage) (him : im ∈ images) (vox : Nat) (hvox : vox < nvox)
    (hfg : (shiftImage im (gmin - 1)).IsForeground vox) :
    ∃ v, (shiftImage im (gmin - 1)).data vox = some v ∧ 0 < v := by
  by_cases horig : im.IsForeground vox
  · obtain ⟨v, hval⟩ : ∃ v, im.data vox = some v := by
      cases hv : im.data vox with
      | none =>
        exact absurd (by rw [GenericImage.IsBackground, hv, hbg im him]) horig
      | some v => exact ⟨v, rfl⟩
    refine ⟨v - (gmin - 1), ?_, ?_⟩
    · simp [shiftImage, if_pos horig, hval]
    · have hle : gmin ≤ v := globalForegroundMin_le hmin him hvox horig hval
      linarith
  · exfalso
    apply hfg
    show (shiftImage im (gmin - 1)).data vox = (shiftImage im (gmin - 1)).bg
    simp [shiftImage, if_neg horig]

/-- Witness for C4's theorem at a concrete input: one single-voxel image
with value 5, so the global foreground minimum is 5 and the shifted value
is `5 − (5 − 1) = 1 > 0`. -/
theorem shifted_foreground_positive_witness :
    ∃ v, (shiftImage ⟨fun _ => some 5, none⟩ (5 - 1)).data 0 = some v ∧ 0 < v :=
  shifted_foreground_positive [⟨fun _ => some 5, none⟩] 1 5
    (by
      intro im him
      simp only [List.mem_singleton] at him
      rw [him])
    (by
      simp [globalForegroundMin, foregroundValues, List.range_succ,
        GenericImage.IsForeground, GenericImage.IsBackground])
    ⟨fun _ => some 5, none⟩ (List.mem_singleton.mpr rfl) 0 (by norm_num)
    (by
      intro h
      rw [GenericImage.IsBackground] at h
      simp [shiftImage, GenericImage.IsForeground, GenericImage.IsBackground] at h)

/-- Claim C10: the shift-to-positive step (lines 478-487) writes exactly
`0` at every background voxel of every input (line 483), replaces each
input's background sentinel, previously NaN, by `0` (line 486); hence any
input that is background at a voxel contributes the sample value `0`
there: its entry in the gathered per-voxel sample array is `some 0`. -/
theorem shift_zeroes_background (images : List GenericImage) (m : ℚ) (vox : Nat)
    (hbg : ∀ im ∈ images, im.bg = none) :
    (∀ im ∈ images, im.IsBackground vox → (shiftImage im m).data vox = some 0) ∧
      (∀ im ∈ images, im.bg = none ∧ (shiftImage im m).bg = some 0) ∧
      (∀ im ∈ images, (shiftImage im m).IsBackground vox →
        (shiftImage im m).data vox = some 0) ∧
      gatherSamples (images.map (fun im => shiftImage im m)) vox =
        images.map (fun im => (shiftImage im m).data vox) := by
  refine ⟨?_, ?_, ?_, ?_⟩
  · intro im _ hb
    have hnfg : ¬ im.IsForeground vox := fun h => h hb
    show (if im.IsForeground vox then (im.data vox).map (fun v => v - m) else some 0) = some 0
    rw [if_neg hnfg]
  · intro im him
    exact ⟨hbg im him, rfl⟩
  · intro im _ hb
    rw [GenericImage.IsBackground] at hb
    exact hb
  · simp [gatherSamples, List.map_map]

/-- Witness for C10's theorem at a concrete input: a single all-background
(NaN-valued) input image. -/
theorem shift_zeroes_background_witness :
    (∀ im ∈ [(⟨fun _ => none, none⟩ : GenericImage)], im.IsBackground 0 →
        (shiftImage im 3).data 0 = some 0) ∧
      (∀ im ∈ [(⟨fun _ => none, none⟩ : GenericImage)], im.bg = none ∧ (shiftImage im 3).bg = some 0) ∧
      (∀ im ∈ [(⟨fun _ => none, none⟩ : GenericImage)], (shiftImage im 3).IsBackground 0 →
        (shiftImage im 3).data 0 = some 0) ∧
      gatherSamples ([(⟨fun _ => none, none⟩ : GenericImage)].map (fun im => shiftImage im 3)) 0 =
        [(⟨fun _ => none, none⟩ : GenericImage)].map (fun im => (shiftImage im 3).data 0) :=
  shift_zeroes_background [⟨fun _ => none, none⟩] 3 0 (by
    intro im him
    simp only [List.mem_singleton] at him
    rw [him])

/-- Lines 599-601 with `GetMinMax` modelled from the spec (the image
container is not under `src/`): the "observed minimum" of the output — the
least numeric value stored at voxels `< nvox` (the spec's post-pass
presumes a numeric minimum; comparisons against NaN entries fail, so they
do not participate), with `0` as the degenerate all-NaN fallback. -/
def outputMinValue (out : GenericImage) (nvox : Nat) : ℚ :=
  (((List.range nvox).filterMap (fun vox => out.data vox)).min?).getD 0

/-- Lines 598-604: the single-threaded post-pass; every voxel still
holding NaN is overwritten with `omin − 1e-3`. -/
def replaceNaN (out : GenericImage) (nvox : Nat) : GenericImage :=
  { out with
    data := fun vox =>
      match out.data vox with
      | none => some (outputMinValue out nvox - 1 / 1000)
      | some v => some v }

/-- Claim C9: after the post-pass, no voxel of the output holds NaN: a
voxel that held NaN now holds the observed minimum minus `1e-3`, and every
other voxel keeps its numeric value. -/
theorem replaceNaN_no_nan (out : GenericImage) (nvox vox : Nat) :
    (replaceNaN out nvox).data vox ≠ none ∧
      (out.data vox = none →
        (replaceNaN out nvox).data vox = some (outputMinValue out nvox - 1 / 1000)) := by
  constructor
  · cases h : out.data vox with
    | none => simp [replaceNaN, h]
    | some v => simp [replaceNaN, h]
  · intro h
    simp [replaceNaN, h]

/-- Witness for C9's theorem: a two-voxel output whose voxel 0 holds NaN
and voxel 1 holds 5; the NaN is replaced by `5 − 1/1000`. -/
theorem replaceNaN_no_nan_witness :
    (replaceNaN ⟨fun vox => if vox = 0 then none else some 5, some (1 / 1000)⟩ 2).data 0 ≠ none ∧
      (replaceNaN ⟨fun vox => if vox = 0 then none else some 5, some (1 / 1000)⟩ 2).data 0 =
        some (outputMinValue ⟨fun vox => if vox = 0 then none else some 5, some (1 / 1000)⟩ 2 - 1 / 1000) :=
  ⟨(replaceNaN_no_nan ⟨fun vox => if vox = 0 then none else some 5, some (1 / 1000)⟩ 2 0).1,
    (replaceNaN_no_nan ⟨fun vox => if vox = 0 then none else some 5, some (1 / 1000)⟩ 2 0).2 rfl⟩

/-- Modelled from the spec (`mirtk::MinElement` is not under `src/`): the
minimum sample value; seeded with the first element (`0` for the empty
array, which `GiniCoefficient` never inspects: with `n = 0` every later
loop is empty). -/
def MinElement (l : List ℚ) : ℚ :=
  l.foldl min (l.headD 0)

/-- The shift amount `1e-6` used for non-integer sample types
(lines 276 and 315; the instantiated sample type is `double`). -/
def epsShift : ℚ := 1 / 1000000

/-- Lines 272-278 and 311-317: if the minimum sample value is `≤ 0`,
subtract `min − 1e-6` from every sample so all become strictly positive;
otherwise leave the samples unchanged. -/
def shiftSamples (l : List ℚ) : List ℚ :=
  if MinElement l ≤ 0 then l.map (fun v => v - (MinElement l - epsShift)) else l

/-- Line 279: `Sort(samples)` ascending. -/
def sortSamples (l : List ℚ) : List ℚ :=
  l.mergeSort (fun a b => a ≤ b)

/-- Lines 280-283, first accumulator:
`sum1 += (2 * i - n + 1) * samples[i]` over the sorted samples. -/
def giniSum1 (l : List ℚ) : ℚ :=
  ∑ i ∈ Finset.range l.length,
    ((2 * (i : ℤ) - (l.length : ℤ) + 1 : ℤ) : ℚ) * l.getD i 0

/-- Lines 280-284, second accumulator: `sum2 += samples[i]`. -/
def giniSum2 (l : List ℚ) : ℚ :=
  ∑ i ∈ Finset.range l.length, l.getD i 0

/-- Lines 267-286 (`GiniCoefficient`): shift to strict positivity, sort
ascending, accumulate the two sums, return `sum1 / (n * sum2)`. -/
def GiniCoefficient (samples : List ℚ) : ℚ :=
  giniSum1 (sortSamples (shiftSamples samples)) /
    ((samples.length : ℚ) * giniSum2 (sortSamples (shiftSamples samples)))

/-- Lines 318-323: the arithmetic mean of the shifted samples. -/
def entropyMean (samples : List ℚ) : ℚ :=
  (∑ i ∈ Finset.range samples.length, (shiftSamples samples).getD i 0) /
    (samples.length : ℚ)

/-- Lines 330, 337: the ratio `p = samples[i] / mean`. -/
def entropyP (samples : List ℚ) (i : ℕ) : ℚ :=
  (shiftSamples samples).getD i 0 / entropyMean samples

/-- Lines 311-360 (`EntropyIndex`, value computed when `alpha ≥ 0` and
`n > 0`): the branch on `alpha` (mean log deviation, Theil index, half
squared coefficient of variation, generalized formula) followed by the
final division by `n`. -/
noncomputable def EntropyIndexVal (samples : List ℚ) (alpha : ℤ) : ℝ :=
  (if alpha = 0 then
    ∑ i ∈ Finset.range samples.length, -Real.log ((entropyP samples i : ℚ) : ℝ)
  else if alpha = 1 then
    ∑ i ∈ Finset.range samples.length,
      ((entropyP samples i : ℚ) : ℝ) * Real.log ((entropyP samples i : ℚ) : ℝ)
  else if alpha = 2 then
    ((∑ i ∈ Finset.range samples.length,
        (((shiftSamples samples).getD i 0 : ℚ) : ℝ) *
          (((shiftSamples samples).getD i 0 : ℚ) : ℝ)) /
      (((entropyMean samples : ℚ) : ℝ) * ((entropyMean samples : ℚ) : ℝ)) -
        (samples.length : ℝ)) / 2
  else
    ((∑ i ∈ Finset.range samples.length, ((entropyP samples i : ℚ) : ℝ) ^ alpha) -
        (samples.length : ℝ)) / ((alpha : ℝ) * ((alpha : ℝ) - 1))) /
    (samples.length : ℝ)

/-- Lines 303-310 (`EntropyIndex`, entry): `Throw(ERR_InvalidArgument, …)`
when `alpha < 0`, result `0.` for an empty sample array, otherwise the
computed value. -/
noncomputable def EntropyIndex (samples : List ℚ) (alpha : ℤ) : Except String ℝ :=
  if alpha < 0 then Except.error "alpha must be non-negative"
  else if samples.length = 0 then Except.ok 0
  else Except.ok (EntropyIndexVal samples alpha)

/-- Claim C7: `EntropyIndex` yields an invalid-argument error exactly when
`alpha < 0`, and for `alpha ≥ 0` the empty sample array yields `0` with no
error. -/
theorem entropyIndex_error_iff :
    (∀ (samples : List ℚ) (alpha : ℤ),
      (∃ e, EntropyIndex samples alpha = Except.error e) ↔ alpha < 0) ∧
      (∀ alpha : ℤ, 0 ≤ alpha → EntropyIndex ([] : List ℚ) alpha = Except.ok 0) := by
  constructor
  · intro samples alpha
    constructor
    · rintro ⟨e, he⟩
      by_contra hlt
      rw [EntropyIndex, if_neg hlt] at he
      by_cases h0 : samples.length = 0
      · rw [if_pos h0] at he
        cases he
      · rw [if_neg h0] at he
        cases he
    · intro hlt
      exact ⟨"alpha must be non-negative", by rw [EntropyIndex, if_pos hlt]⟩
  · intro alpha halpha
    rw [EntropyIndex, if_neg (not_lt.mpr halpha)]
    simp

/-- Witness for C7's theorem: a negative `alpha` errors on a non-empty
array, and `alpha = 0` on the empty array yields `0`. -/
theorem entropyIndex_error_iff_witness :
    (∃ e, EntropyIndex [1] (-1) = Except.error e) ∧
      EntropyIndex ([] : List ℚ) 0 = Except.ok 0 :=
  ⟨(entropyIndex_error_iff.1 [1] (-1)).mpr (by norm_num),
    entropyIndex_error_iff.2 0 le_rfl⟩

/-- Claim C8: `GiniCoefficient` on the empty sample array performs its
final division with a zero denominator (`n * sum2 = 0 * 0`): there is no
`n = 0` guard and no error path, the quotient is formed regardless (in
IEEE `double` arithmetic `0/0` is NaN; the rational model renders the
undefined quotient by the `x / 0 = 0` convention). -/
theorem gini_empty_zero_denominator :
    ((([] : List ℚ).length : ℚ) *
        giniSum2 (sortSamples (shiftSamples ([] : List ℚ))) = 0) ∧
      GiniCoefficient ([] : List ℚ) =
        giniSum1 (sortSamples (shiftSamples ([] : List ℚ))) /
          ((([] : List ℚ).length : ℚ) *
            giniSum2 (sortSamples (shiftSamples ([] : List ℚ)))) := by
  constructor
  · simp
  · rfl

lemma foldl_min_replicate (n : ℕ) (a : ℚ) :
    (List.replicate n a).foldl min a = a := by
  induction n with
  | zero => rfl
  | succ k ih => rw [List.replicate_succ, List.foldl_cons, min_self, ih]

lemma MinElement_replicate {n : ℕ} (h : 0 < n) (a : ℚ) :
    MinElement (List.replicate n a) = a := by
  obtain ⟨k, rfl⟩ := Nat.exists_eq_succ_of_ne_zero h.ne'
  rw [MinElement, List.replicate_succ, List.headD_cons, List.foldl_cons, min_self]
  exact foldl_min_replicate k a

lemma shiftSamples_replicate {n : ℕ} (h : 0 < n) (c : ℚ) :
    ∃ d, 0 < d ∧ shiftSamples (List.replicate n c) = List.replicate n d := by
  by_cases hc : c ≤ 0
  · refine ⟨epsShift, by norm_num [epsShift], ?_⟩
    rw [shiftSamples, MinElement_replicate h, if_pos hc, List.map_replicate]
    congr 1
    ring
  · refine ⟨c, not_le.mp hc, ?_⟩
    rw [shiftSamples, MinElement_replicate h, if_neg hc]

lemma getD_replicate_eq : ∀ (n i : ℕ), i < n → ∀ a : ℚ,
    (List.replicate n a).getD i 0 = a := by
  intro n
  induction n with
  | zero =>
    intro i hi
    exact absurd hi (Nat.not_lt_zero i)
  | succ k ih =>
    intro i hi a
    rw [List.replicate_succ]
    cases i with
    | zero => rfl
    | succ j =>
      have hj : j < k := Nat.lt_of_succ_lt_succ hi
      exact ih j hj a

lemma sortSamples_replicate (n : ℕ) (a : ℚ) :
    sortSamples (List.replicate n a) = List.replicate n a := by
  rw [sortSamples]
  exact List.perm_replicate.mp (List.mergeSort_perm (List.replicate n a) _)

lemma sum_gini_coeff (n : ℕ) :
    ∑ i ∈ Finset.range n, (2 * (i : ℤ) - (n : ℤ) + 1) = 0 := by
  have h2 : ∀ m : ℕ, ∑ i ∈ Finset.range m, (2 * (i : ℤ)) = m * (m - 1) := by
    intro m
    induction m with
    | zero => simp
    | succ k ih =>
      rw [Finset.sum_range_succ, ih]
      push_cast
      ring
  have hsplit : ∑ i ∈ Finset.range n, (2 * (i : ℤ) - (n : ℤ) + 1) =
      (∑ i ∈ Finset.range n, 2 * (i : ℤ)) + ∑ _i ∈ Finset.range n, (1 - (n : ℤ)) := by
    rw [← Finset.sum_add_distrib]
    apply Finset.sum_congr rfl
    intro i _
    ring
  rw [hsplit, h2, Finset.sum_const, Finset.card_range, nsmul_eq_mul]
  ring

lemma giniSum1_replicate (n : ℕ) (d : ℚ) :
    giniSum1 (List.replicate n d) = 0 := by
  rw [giniSum1, List.length_replicate]
  have hcongr : ∑ i ∈ Finset.range n,
      ((2 * (i : ℤ) - (n : ℤ) + 1 : ℤ) : ℚ) * (List.replicate n d).getD i 0 =
      ∑ i ∈ Finset.range n, ((2 * (i : ℤ) - (n : ℤ) + 1 : ℤ) : ℚ) * d := by
    apply Finset.sum_congr rfl
    intro i hi
    rw [getD_replicate_eq n i (Finset.mem_range.mp hi) d]
  rw [hcongr, ← Finset.sum_mul]
  have : ∑ i ∈ Finset.range n, ((2 * (i : ℤ) - (n : ℤ) + 1 : ℤ) : ℚ) =
      ((∑ i ∈ Finset.range n, (2 * (i : ℤ) - (n : ℤ) + 1) : ℤ) : ℚ) := by
    push_cast
    rfl
  rw [this, sum_gini_coeff]
  norm_num

lemma gini_replicate {n : ℕ} (h : 0 < n) (c : ℚ) :
    GiniCoefficient (List.replicate n c) = 0 := by
  obtain ⟨d, _, hshift⟩ := shiftSamples_replicate h c
  rw [GiniCoefficient, hshift, sortSamples_replicate, giniSum1_replicate, zero_div]

lemma sum_getD_replicate (n : ℕ) (d : ℚ) :
    ∑ i ∈ Finset.range n, (List.replicate n d).getD i 0 = n * d := by
  have hcongr : ∑ i ∈ Finset.range n, (List.replicate n d).getD i 0 =
      ∑ _i ∈ Finset.range n, d := by
    apply Finset.sum_congr rfl
    intro i hi
    rw [getD_replicate_eq n i (Finset.mem_range.mp hi) d]
  rw [hcongr, Finset.sum_const, Finset.card_range, nsmul_eq_mul]

lemma entropyMean_replicate {n : ℕ} (h : 0 < n) (c : ℚ) {d : ℚ}
    (hshift : shiftSamples (List.replicate n c) = List.replicate n d) :
    entropyMean (List.replicate n c) = d := by
  rw [entropyMean, hshift, List.length_replicate, sum_getD_replicate]
  exact mul_div_cancel_left₀ d (Nat.cast_ne_zero.mpr h.ne')

lemma entropyP_replicate {n : ℕ} (h : 0 < n) (c : ℚ) {d : ℚ} (hd : 0 < d)
    (hshift : shiftSamples (List.replicate n c) = List.replicate n d)
    {i : ℕ} (hi : i < n) :
    entropyP (List.replicate n c) i = 1 := by
  rw [entropyP, hshift, entropyMean_replicate h c hshift, getD_replicate_eq n i hi]
  exact div_self hd.ne'

lemma entropyVal_replicate {n : ℕ} (h : 0 < n) (c : ℚ) (alpha : ℤ) :
    EntropyIndexVal (List.replicate n c) alpha = 0 := by
  obtain ⟨d, hd, hshift⟩ := shiftSamples_replicate h c
  have hdr : ((d : ℚ) : ℝ) ≠ 0 := Rat.cast_ne_zero.mpr hd.ne'
  rw [EntropyIndexVal, List.length_replicate]
  have hp : ∀ i ∈ Finset.range n, entropyP (List.replicate n c) i = 1 := by
    intro i hi
    exact entropyP_replicate h c hd hshift (Finset.mem_range.mp hi)
  split_ifs with h0 h1 h2
  · have hsum : ∑ i ∈ Finset.range n,
        -Real.log ((entropyP (List.replicate n c) i : ℚ) : ℝ) = 0 := by
      rw [Finset.sum_eq_zero]
      intro i hi
      rw [hp i hi]
      simp [Real.log_one]
    rw [hsum, zero_div]
  · have hsum : ∑ i ∈ Finset.range n,
        ((entropyP (List.replicate n c) i : ℚ) : ℝ) *
          Real.log ((entropyP (List.replicate n c) i : ℚ) : ℝ) = 0 := by
      rw [Finset.sum_eq_zero]
      intro i hi
      rw [hp i hi]
      simp [Real.log_one]
    rw [hsum, zero_div]
  · have hmean := entropyMean_replicate h c hshift
    have hsum : ∑ i ∈ Finset.range n,
        (((shiftSamples (List.replicate n c)).getD i 0 : ℚ) : ℝ) *
          (((shiftSamples (List.replicate n c)).getD i 0 : ℚ) : ℝ) =
        (n : ℝ) * (((d : ℚ) : ℝ) * ((d : ℚ) : ℝ)) := by
      have hterm : ∀ i ∈ Finset.range n,
          (((shiftSamples (List.replicate n c)).getD i 0 : ℚ) : ℝ) *
            (((shiftSamples (List.replicate n c)).getD i 0 : ℚ) : ℝ) =
          ((d : ℚ) : ℝ) * ((d : ℚ) : ℝ) := by
        intro i hi
        rw [hshift, getD_replicate_eq n i (Finset.mem_range.mp hi) d]
      rw [Finset.sum_congr rfl hterm, Finset.sum_const, Finset.card_range, nsmul_eq_mul]
    rw [hsum, hmean]
    have hdd : ((d : ℚ) : ℝ) * ((d : ℚ) : ℝ) ≠ 0 := mul_ne_zero hdr hdr
    rw [mul_div_assoc, div_self hdd, mul_one, sub_self, zero_div, zero_div]
  · have hsum : ∑ i ∈ Finset.range n,
        ((entropyP (List.replicate n c) i : ℚ) : ℝ) ^ alpha = (n : ℝ) := by
      have hterm : ∀ i ∈ Finset.range n,
          ((entropyP (List.replicate n c) i : ℚ) : ℝ) ^ alpha = 1 := by
        intro i hi
        rw [hp i hi]
        simp
      rw [Finset.sum_congr rfl hterm, Finset.sum_const, Finset.card_range, nsmul_eq_mul,
        mul_one]
    rw [hsum, sub_self, zero_div, zero_div]

/-- Claim C5: for every non-empty sample array with all values equal, the
Gini coefficient is `0`, and the generalized entropy index is `Except.ok 0`
for every `alpha ≥ 0`. -/
theorem equal_samples_zero (l : List ℚ) (c : ℚ) (hne : l ≠ [])
    (heq : ∀ x ∈ l, x = c) :
    GiniCoefficient l = 0 ∧
      ∀ alpha : ℤ, 0 ≤ alpha → EntropyIndex l alpha = Except.ok 0 := by
  have hrep := List.eq_replicate_of_mem heq
  have hn : 0 < l.length := List.length_pos.mpr hne
  constructor
  · rw [hrep]
    exact gini_replicate hn c
  · intro alpha halpha
    rw [hrep, EntropyIndex, if_neg (not_lt.mpr halpha),
      if_neg (by rw [List.length_replicate]; exact hn.ne'), entropyVal_replicate hn c alpha]

/-- Witness for C5's theorem at the concrete array `[2, 2]` with
`alpha = 0`. -/
theorem equal_samples_zero_witness :
    GiniCoefficient [2, 2] = 0 ∧ EntropyIndex [2, 2] 0 = Except.ok 0 := by
  have h := equal_samples_zero [2, 2] 2 (by simp) (by
    intro x hx
    rcases List.mem_cons.mp hx with rfl | hx'
    · rfl
    · rcases List.mem_cons.mp hx' with rfl | hx''
      · rfl
      · cases hx'')
  exact ⟨h.1, h.2 0 le_rfl⟩

lemma headD_map_mul (k : ℚ) (l : List ℚ) :
    (l.map (fun v => k * v)).headD 0 = k * l.headD 0 := by
  cases l with
  | nil => simp
  | cons a t => simp

lemma foldl_min_map_mul {k : ℚ} (hk : 0 ≤ k) :
    ∀ (l : List ℚ) (a : ℚ),
      (l.map (fun v => k * v)).foldl min (k * a) = k * l.foldl min a := by
  intro l
  induction l with
  | nil =>
    intro a
    rfl
  | cons b t ih =>
    intro a
    rw [List.map_cons, List.foldl_cons, List.foldl_cons,
      ← (monotone_mul_left_of_nonneg hk).map_min, ih (min a b)]

lemma MinElement_map_mul {k : ℚ} (hk : 0 ≤ k) (l : List ℚ) :
    MinElement (l.map (fun v => k * v)) = k * MinElement l := by
  rw [MinElement, MinElement, headD_map_mul]
  exact foldl_min_map_mul hk l (l.headD 0)

lemma sortSamples_sorted (l : List ℚ) : List.Sorted (· ≤ ·) (sortSamples l) := by
  have h := @List.sorted_mergeSort ℚ
    (fun a b : ℚ => decide (a ≤ b))
    (fun a b c hab hbc =>
      decide_eq_true (le_trans (of_decide_eq_true hab) (of_decide_eq_true hbc)))
    (fun a b => by
      show (decide (a ≤ b) || decide (b ≤ a)) = true
      rcases le_total a b with h | h
      · rw [decide_eq_true h]
        rfl
      · rw [decide_eq_true h, Bool.or_true])
    l
  exact h.imp (fun hab => of_decide_eq_true hab)

lemma sortSamples_perm (l : List ℚ) : (sortSamples l).Perm l :=
  List.mergeSort_perm l _

lemma sortSamples_map_mul {k : ℚ} (hk : 0 < k) (l : List ℚ) :
    sortSamples (l.map (fun v => k * v)) = (sortSamples l).map (fun v => k * v) := by
  refine List.eq_of_perm_of_sorted
    ((sortSamples_perm _).trans (List.Perm.map _ (sortSamples_perm l).symm))
    (sortSamples_sorted _)
    (List.Pairwise.map _
      (fun a b (hab : a ≤ b) => mul_le_mul_of_nonneg_left hab hk.le)
      (sortSamples_sorted l))

lemma getD_map_mul (k : ℚ) (l : List ℚ) (i : ℕ) :
    (l.map (fun v => k * v)).getD i 0 = k * l.getD i 0 := by
  rw [List.getD_eq_getElem?_getD, List.getD_eq_getElem?_getD, List.getElem?_map]
  cases h : l[i]? with
  | none => simp
  | some v => simp

lemma giniSum1_map_mul (k : ℚ) (l : List ℚ) :
    giniSum1 (l.map (fun v => k * v)) = k * giniSum1 l := by
  rw [giniSum1, giniSum1, List.length_map, Finset.mul_sum]
  apply Finset.sum_congr rfl
  intro i _
  rw [getD_map_mul]
  ring

lemma giniSum2_map_mul (k : ℚ) (l : List ℚ) :
    giniSum2 (l.map (fun v => k * v)) = k * giniSum2 l := by
  rw [giniSum2, giniSum2, List.length_map, Finset.mul_sum]
  apply Finset.sum_congr rfl
  intro i _
  rw [getD_map_mul]

/-- Claim C6 (amended): the Gini coefficient is invariant under uniform
rescaling by `k > 0` for sample arrays whose minimum is strictly positive
(so that no shift is applied); for arrays whose minimum is `≤ 0` the fixed
additive shift `−(min − 1e-6)` breaks the invariance. -/
theorem gini_scale_invariant (samples : List ℚ) (k : ℚ) (hk : 0 < k)
    (hmin : 0 < MinElement samples) :
    GiniCoefficient (samples.map (fun v => k * v)) = GiniCoefficient samples := by
  have hshift1 : shiftSamples samples = samples := by
    rw [shiftSamples, if_neg (not_le.mpr hmin)]
  have hmin2 : 0 < MinElement (samples.map (fun v => k * v)) := by
    rw [MinElement_map_mul hk.le]
    exact mul_pos hk hmin
  have hshift2 : shiftSamples (samples.map (fun v => k * v)) =
      samples.map (fun v => k * v) := by
    rw [shiftSamples, if_neg (not_le.mpr hmin2)]
  rw [GiniCoefficient, GiniCoefficient, hshift1, hshift2, sortSamples_map_mul hk,
    giniSum1_map_mul, giniSum2_map_mul, List.length_map]
  rw [show (samples.length : ℚ) * (k * giniSum2 (sortSamples samples)) =
      k * ((samples.length : ℚ) * giniSum2 (sortSamples samples)) from by ring]
  exact mul_div_mul_left _ _ hk.ne'

/-- Witness for C6's amended theorem: `gini(2·[1,2]) = gini([1,2])`. -/
theorem gini_scale_invariant_witness :
    GiniCoefficient (([1, 2] : List ℚ).map (fun v => 2 * v)) =
      GiniCoefficient [1, 2] :=
  gini_scale_invariant [1, 2] 2 (by norm_num)
    (by norm_num [MinElement])

/-- Counterexample to claim C6 as stated (for every sample array): with
samples `[0, 1]` and `k = 2` the minimum is `0`, so both evaluations apply
the fixed `1e-6` shift, which does not commute with rescaling:
`gini([0, 2]) = 1/(2 + 2e-6)` while `gini([0, 1]) = 1/(2 + 4e-6)`. -/
theorem gini_not_scale_invariant :
    GiniCoefficient (([0, 1] : List ℚ).map (fun v => 2 * v)) ≠
      GiniCoefficient [0, 1] := by
  norm_num [GiniCoefficient, giniSum1, giniSum2, sortSamples, shiftSamples,
    MinElement, epsShift, List.mergeSort, Finset.sum_range_succ]
